import Mathlib

/-!
Verification development for `update_epg.py`: an EPG (electronic program
guide) merger that matches playlist channels against feed channels by
normalized name, with manual-override / exact / fuzzy resolver tiers,
fans matched records out to all target identifiers, and reports the
still-unresolved keys.

Python strings are embedded as `List Char`; the two regular expressions of
the script (`PREFIX_PATTERN`, `SUFFIX_PATTERN`) are embedded directly as
character-list functions; `difflib`'s similarity machinery is embedded from
its algorithm (exact rational arithmetic standing for the script's float
scores: for the short strings involved the two orders agree); the network,
gzip and XML layers are peripheral I/O and enter the model as already-parsed
feed data.
-/

/-- Python strings, embedded as lists of characters. -/
abbrev Str := List Char

/-- ASCII letter or digit (code points of `a`-`z`, `A`-`Z`, `0`-`9`): the
characters `NON_ALNUM_PATTERN = [^a-zA-Z0-9]` keeps when `normalize_name`
strips everything else. -/
def isAsciiAlnum (c : Char) : Bool :=
  (97 ≤ c.toNat && c.toNat ≤ 122) || (65 ≤ c.toNat && c.toNat ≤ 90) ||
    (48 ≤ c.toNat && c.toNat ≤ 57)

/-- Lowercase ASCII letter or digit: the alphabet of fully normalized keys. -/
def isLowerAlnum (c : Char) : Bool :=
  (97 ≤ c.toNat && c.toNat ≤ 122) || (48 ≤ c.toNat && c.toNat ≤ 57)

/-- Word character for the regex `\b` word boundary (Python `\w`). The strings
this development reasons about are ASCII, where `\w` is letters, digits
and underscore. -/
def isWordChar (c : Char) : Bool := isAsciiAlnum c || c == '_'

/-- Whitespace for the regex `\s` (its ASCII members; the non-ASCII members
never occur in the strings this development evaluates, and they are not
alphanumeric either, which is all the proofs use). -/
def isPySpace (c : Char) : Bool :=
  c == ' ' || c == '\t' || c == '\n' || c == '\x0b' || c == '\x0c' || c == '\r'

/-- Case-insensitive character comparison, `re.IGNORECASE` over ASCII. -/
def ciEq (c d : Char) : Bool := Char.toLower c == Char.toLower d

/-- `PREFIX_PATTERN = re.compile(r"^(FR:|UK \||DE -|ES:|IT:|US:|CA:|SA:|FR\s|UK\s|DE\s)", re.IGNORECASE)`:
the length of the alternative matching at the start of the string, the
alternatives tried in the pattern's order, or `none`. -/
def prefixMatchLen (s : Str) : Option Nat :=
  match s with
  | c0 :: c1 :: c2 :: rest =>
    if ciEq c0 'F' && ciEq c1 'R' && c2 == ':' then some 3
    else if ciEq c0 'U' && ciEq c1 'K' && c2 == ' ' &&
        (match rest with | c3 :: _ => c3 == '|' | [] => false) then some 4
    else if ciEq c0 'D' && ciEq c1 'E' && c2 == ' ' &&
        (match rest with | c3 :: _ => c3 == '-' | [] => false) then some 4
    else if ciEq c0 'E' && ciEq c1 'S' && c2 == ':' then some 3
    else if ciEq c0 'I' && ciEq c1 'T' && c2 == ':' then some 3
    else if ciEq c0 'U' && ciEq c1 'S' && c2 == ':' then some 3
    else if ciEq c0 'C' && ciEq c1 'A' && c2 == ':' then some 3
    else if ciEq c0 'S' && ciEq c1 'A' && c2 == ':' then some 3
    else if ciEq c0 'F' && ciEq c1 'R' && isPySpace c2 then some 3
    else if ciEq c0 'U' && ciEq c1 'K' && isPySpace c2 then some 3
    else if ciEq c0 'D' && ciEq c1 'E' && isPySpace c2 then some 3
    else none
  | _ => none

/-- `PREFIX_PATTERN.sub("", name)`: the pattern is anchored with `^` (and the
script does not use `re.MULTILINE`), so `re.sub` removes at most the one
match at position 0. -/
def prefixSub (s : Str) : Str :=
  match prefixMatchLen s with
  | some n => s.drop n
  | none => s

/-- The alternatives of
`SUFFIX_PATTERN = re.compile(r"\b(FHD|HD|SD|H265|VIP|4K|Backup|HEVC|AVC)\b", re.IGNORECASE)`
in the pattern's order. -/
def suffixTokens : List Str :=
  [['F','H','D'], ['H','D'], ['S','D'], ['H','2','6','5'], ['V','I','P'],
   ['4','K'], ['B','a','c','k','u','p'], ['H','E','V','C'], ['A','V','C']]

/-- Does the token (first argument) match case-insensitively at the start of
the string (second argument)? -/
def startsWithCI : Str → Str → Bool
  | [], _ => true
  | _ :: _, [] => false
  | t :: ts, c :: cs => ciEq c t && startsWithCI ts cs

/-- `\b` after a match: the rest of the string is empty or starts with a
non-word character. -/
def endBoundary : Str → Bool
  | [] => true
  | c :: _ => !isWordChar c

/-- The first alternative of `SUFFIX_PATTERN` matching at this position with
its trailing `\b`, as its length. The leading `\b` is the caller's business:
every alternative starts with a word character, so a match can only start
where the previous character is not a word character. -/
def suffixTokenLen (s : Str) : Option Nat :=
  suffixTokens.findSome? fun t =>
    if startsWithCI t s && endBoundary (s.drop t.length) then some t.length else none

/-- One left-to-right `re.sub` scan for `SUFFIX_PATTERN`: `prevWord` says
whether the character before the current position is a word character (at a
match's end it is, since every alternative ends in a word character). The
fuel is at least the string length, and each step consumes at least one
character. -/
def suffixSubAux : Nat → Bool → Str → Str
  | 0, _, s => s
  | _ + 1, _, [] => []
  | fuel + 1, prevWord, c :: cs =>
    if prevWord then c :: suffixSubAux fuel (isWordChar c) cs
    else
      match suffixTokenLen (c :: cs) with
      | some n => suffixSubAux fuel true ((c :: cs).drop n)
      | none => c :: suffixSubAux fuel (isWordChar c) cs

/-- `SUFFIX_PATTERN.sub("", name)`. -/
def suffixSub (s : Str) : Str := suffixSubAux s.length false s

/-- `normalize_name` of `update_epg.py`: empty input is returned unchanged
(`if not name: return ""`), otherwise the prefix match is stripped, the
quality-suffix tokens are removed, every non-alphanumeric character is
dropped and the rest is lowercased (`str.lower` on the surviving ASCII
alphanumeric characters is exactly `Char.toLower`). -/
def normalize_name (s : Str) : Str :=
  if s = [] then []
  else ((suffixSub (prefixSub s)).filter isAsciiAlnum).map Char.toLower

example : normalize_name "FR: TF1 HD".data = "tf1".data := by decide
example : normalize_name "Channel One".data = "channelone".data := by decide
example : normalize_name "h-d".data = "hd".data := by decide
example : normalize_name "hd".data = [] := by decide

/-! ### difflib: sequence similarity

`process_single_epg` calls `difflib.get_close_matches(m3u_key, epg_norm_names,
n=1, cutoff=FUZZY_MATCH_CUTOFF)`.  `SequenceMatcher` is embedded without junk
heuristics: the script never passes `isjunk`, and `autojunk` only engages for
sequences of 200 or more characters, far beyond channel names.  Scores are
exact rationals; the script compares IEEE doubles, but for the string lengths
in play a score `2*m/t` differs from 17/20 by at least `1/(20*t)`, many orders
of magnitude above double rounding error, so the comparisons agree. -/

/-- Length of the common prefix of two strings. -/
def matchLen : Str → Str → Nat
  | a :: as, b :: bs => if a = b then matchLen as bs + 1 else 0
  | _, _ => 0

/-- `a[i:j]`, as Python slices. -/
def pySlice (a : Str) (i j : Nat) : Str := (a.drop i).take (j - i)

/-- `SequenceMatcher.find_longest_match(alo, ahi, blo, bhi)` with no junk: its
documented contract returns the `(i, j, k)` with `a[i:i+k] == b[j:j+k]`,
`alo <= i <= i+k <= ahi`, `blo <= j <= j+k <= bhi`, `k` maximal, and among
maximal blocks the one starting earliest in `a`, then earliest in `b`.  The
fold scans `i` then `j` in ascending order and replaces the best block only
on strict improvement, which realises exactly that tie-break. -/
def findLongestMatch (a b : Str) (alo ahi blo bhi : Nat) : Nat × Nat × Nat :=
  (List.range' alo (ahi - alo)).foldl
    (fun best i =>
      (List.range' blo (bhi - blo)).foldl
        (fun best j =>
          let k := matchLen (pySlice a i ahi) (pySlice b j bhi)
          if best.2.2 < k then (i, j, k) else best)
        best)
    (alo, blo, 0)

/-- Total size of the matching blocks of `SequenceMatcher.get_matching_blocks`
restricted to a window: the longest match splits the window and both sides
are processed recursively (the final sort-and-merge step of
`get_matching_blocks` preserves this total).  Each recursion level shrinks
the window, so fuel `(ahi-alo)+(bhi-blo)+1` suffices at the top call. -/
def matchTotalAux : Nat → Str → Str → Nat → Nat → Nat → Nat → Nat
  | 0, _, _, _, _, _, _ => 0
  | fuel + 1, a, b, alo, ahi, blo, bhi =>
    let m := findLongestMatch a b alo ahi blo bhi
    if m.2.2 = 0 then 0
    else
      matchTotalAux fuel a b alo m.1 blo m.2.1 + m.2.2 +
        matchTotalAux fuel a b (m.1 + m.2.2) ahi (m.2.1 + m.2.2) bhi

/-- The number difflib calls `matches`: the total size of all matching blocks
between `a` and `b`. -/
def matchTotal (a b : Str) : Nat :=
  matchTotalAux (a.length + b.length + 1) a b 0 a.length 0 b.length

/-- `difflib.quick_ratio`'s `matches`: for every character, the smaller of its
two occurrence counts — the size of the multiset intersection, which the
`avail` loop of `quick_ratio` computes. -/
def quickMatches (a b : Str) : Nat := (a.bagInter b).length

/-- `_calculate_ratio(matches, length) >= FUZZY_MATCH_CUTOFF` in exact
arithmetic: the ratio is `2*matches/length` (or `1.0` for two empty
sequences) and the cutoff is `0.85 = 17/20`. -/
def calcRatioGeCutoff (m total : Nat) : Bool :=
  if total = 0 then true else 17 * total ≤ 40 * m

/-- `FUZZY_MATCH_CUTOFF = 0.85` as a rational, for statements. -/
def FUZZY_MATCH_CUTOFF : ℚ := 17/20

/-- `SequenceMatcher.ratio()` as a rational, for statements. -/
def ratioQ (a b : Str) : ℚ :=
  if a.length + b.length = 0 then 1
  else (2 * matchTotal a b : ℚ) / (a.length + b.length)

/-- The filter of `get_close_matches`:
`real_quick_ratio() >= cutoff and quick_ratio() >= cutoff and ratio() >= cutoff`
(`real_quick_ratio` bounds matches by `min(len(a), len(b))`). -/
def passesCutoff (x word : Str) : Bool :=
  calcRatioGeCutoff (min x.length word.length) (x.length + word.length) &&
    calcRatioGeCutoff (quickMatches x word) (x.length + word.length) &&
    calcRatioGeCutoff (matchTotal x word) (x.length + word.length)

/-- `ratio()` of a candidate as an exact numerator/denominator pair (the pair
`(1,1)` standing for the `1.0` of two empty sequences), for the comparisons
`heapq.nlargest` makes. -/
def ratioRep (x word : Str) : Nat × Nat :=
  let t := x.length + word.length
  if t = 0 then (1, 1) else (2 * matchTotal x word, t)

/-- Python `<` on strings: lexicographic by code point. -/
def pyStrLt : Str → Str → Bool
  | [], [] => false
  | [], _ :: _ => true
  | _ :: _, [] => false
  | a :: as, b :: bs => if a < b then true else if b < a then false else pyStrLt as bs

/-- One comparison step of `heapq.nlargest(1, [(score, x)])`: keep the
candidate whose `(ratio, string)` tuple is lexicographically larger (the
score comparison done exactly on the numerator/denominator pairs). -/
def nlargestStep (word : Str) (best : Option Str) (x : Str) : Option Str :=
  match best with
  | none => some x
  | some b =>
    if (ratioRep b word).1 * (ratioRep x word).2 < (ratioRep x word).1 * (ratioRep b word).2
        || ((ratioRep x word).1 * (ratioRep b word).2 == (ratioRep b word).1 * (ratioRep x word).2
            && pyStrLt b x)
    then some x else some b

/-- `difflib.get_close_matches(word, possibilities, n=1, cutoff=0.85)`, as the
script calls it: keep the candidates passing the three-filter cutoff test,
then `heapq.nlargest(1, [(score, x)])` — the maximum under the lexicographic
tuple order (score first, then Python string order). -/
def getCloseMatches1 (word : Str) (poss : List Str) : Option Str :=
  (poss.filter fun x => passesCutoff x word).foldl (nlargestStep word) none

set_option maxRecDepth 10000 in
example : matchTotal "beinsports1".data "beinsport1".data = 10 := by decide
set_option maxRecDepth 10000 in
example : matchTotal "abc".data "bbc".data = 2 := by decide
set_option maxRecDepth 10000 in
example : getCloseMatches1 "beinsport1".data ["beinsports1".data] = some "beinsports1".data := by
  decide
set_option maxRecDepth 10000 in
example : getCloseMatches1 "bbc".data ["abc".data] = none := by decide
set_option maxRecDepth 10000 in
example : getCloseMatches1 "tf11".data ["tf1".data] = some "tf1".data := by decide

/-! ### Feed model, identity resolver and feed merger

`process_single_epg` (src/update_epg.py lines 61-202).  Downloading,
gunzipping and XML parsing are peripheral I/O; a feed enters the model as its
parsed channel and programme records.  A channel element is represented by
its `id` attribute and the text of its `display-name` child, a programme by
its `channel` reference and its content; both stand for the whole element,
which the script copies verbatim apart from the one rewritten attribute. -/

/-- A `<channel>` record of a feed. -/
structure FeedChannel where
  id : Str
  name : Str
deriving DecidableEq, Repr

/-- A `<programme>` record of a feed. -/
structure Programme where
  channel : Str
  body : Str
deriving DecidableEq, Repr

/-- A downloaded and parsed feed. -/
structure FeedContent where
  channels : List FeedChannel
  programmes : List Programme
deriving DecidableEq, Repr

/-- Python-dict lookup on an insertion-ordered association list. -/
def assocFind (k : Str) : List (Str × α) → Option α
  | [] => none
  | (k', v) :: rest => if k' = k then some v else assocFind k rest

/-- Python-dict write: overwriting an existing key keeps its position,
a new key is appended. -/
def assocUpdate (k : Str) (v : α) : List (Str × α) → List (Str × α)
  | [] => [(k, v)]
  | (k', v') :: rest =>
    if k' = k then (k, v) :: rest else (k', v') :: assocUpdate k v rest

/-- Pass 1's channel scan: `temp_channel_storage[normalize_name(text)] =
{'id': c_id, 'elem': elem}` for every channel with a non-empty display name
(`if display_name is not None and display_name.text:`), in document order,
later channels overwriting earlier ones with the same normalized name. -/
def buildStorage (channels : List FeedChannel) : List (Str × FeedChannel) :=
  channels.foldl
    (fun st ch => if ch.name = [] then st else assocUpdate (normalize_name ch.name) ch st)
    []

/-- `MANUAL_OVERRIDES` is operator-supplied configuration (empty as shipped);
the resolver takes it as a parameter. -/
def MANUAL_OVERRIDES : List (Str × Str) := []

/-- Resolver tier 1, manual override: an override for this key whose exact
SourceID occurs among this feed's channels (`for k, v in
temp_channel_storage.items(): if v['id'] == tgt_id`). -/
def resolveOverride (ov : List (Str × Str)) (storage : List (Str × FeedChannel))
    (key : Str) : Option Str :=
  match assocFind key ov with
  | some tgt => if storage.any (fun e => decide (e.2.id = tgt)) then some tgt else none
  | none => none

/-- The resolver of `process_single_epg`'s matching loop: manual override,
then exact normalized-name match, then `difflib.get_close_matches` over this
feed's normalized names; the first tier that sets `match_found` wins. -/
def resolveKey (ov : List (Str × Str)) (storage : List (Str × FeedChannel))
    (key : Str) : Option Str :=
  match resolveOverride ov storage key with
  | some sid => some sid
  | none =>
    match assocFind key storage with
    | some e => some e.id
    | none =>
      match getCloseMatches1 key (storage.map Prod.fst) with
      | some best => (assocFind best storage).map FeedChannel.id
      | none => none

/-- Step 4 of the matching loop: retrieve the element for the matched
SourceID — the first storage entry carrying that id, in insertion order. -/
def findElemById (storage : List (Str × FeedChannel)) (sid : Str) : Option FeedChannel :=
  (storage.find? (fun e => decide (e.2.id = sid))).map Prod.snd

/-- A playlist group: the `{'ids': [...], 'original_names': [...]}` value of
`m3u_map`. -/
abbrev M3uGroup := List Str × List Str

/-- `m3u_map[m3u_key]['ids']` (every key the matching loop sees is a key of
the map, built from the same playlist). -/
def targetsOf (m3uMap : List (Str × M3uGroup)) (key : Str) : List Str :=
  ((assocFind key m3uMap).map Prod.fst).getD []

/-- What one iteration of the matching loop decides for one key: the matched
SourceID, the element retrieved for it, and the key's target ids — or
nothing.  The decision depends only on the feed's storage and the maps,
not on the loop's accumulated state. -/
def keyOutcome (ov : List (Str × Str)) (storage : List (Str × FeedChannel))
    (m3uMap : List (Str × M3uGroup)) (key : Str) : Option (Str × FeedChannel × List Str) :=
  match resolveKey ov storage key with
  | none => none
  | some sid =>
    match findElemById storage sid with
    | none => none
    | some e => some (sid, e, targetsOf m3uMap key)

/-- The mutable state of the matching loop: keys found in this file, channel
records already written to the output file, and the per-feed
`source_to_dest_map`. -/
structure ChanPassState where
  found : List Str
  chansOut : List FeedChannel
  s2d : List (Str × List Str)
deriving DecidableEq, Repr

/-- One iteration of `for m3u_key in list(unmatched_keys)`: on a match,
`source_to_dest_map[source_epg_id] = target_ids`, one channel record per
target id is written immediately (`matched_elem.set("id", tid)` then
serialize), and the key joins `found_keys_in_this_file`. -/
def chanPassStep (ov : List (Str × Str)) (storage : List (Str × FeedChannel))
    (m3uMap : List (Str × M3uGroup)) (st : ChanPassState) (key : Str) : ChanPassState :=
  match keyOutcome ov storage m3uMap key with
  | none => st
  | some (sid, e, tids) =>
    { found := st.found ++ [key]
      chansOut := st.chansOut ++ tids.map (fun tid => { e with id := tid })
      s2d := assocUpdate sid tids st.s2d }

/-- Pass 1's matching loop over the still-unmatched keys. -/
def chanPass (ov : List (Str × Str)) (storage : List (Str × FeedChannel))
    (m3uMap : List (Str × M3uGroup)) (keys : List Str) : ChanPassState :=
  keys.foldl (chanPassStep ov storage m3uMap) ⟨[], [], []⟩

/-- Pass 2: `if source_to_dest_map:` guard, then every programme whose
`channel` reference is a key of the map is written once per mapped target
id, with the reference rewritten (`elem.set("channel", tid)`); unmatched
programmes are dropped.  The streaming loop appends records in exactly this
order. -/
def progPass (s2d : List (Str × List Str)) (progs : List Programme) : List Programme :=
  if s2d = [] then []
  else
    progs.flatMap fun p =>
      match assocFind p.channel s2d with
      | some tids => tids.map fun tid => { p with channel := tid }
      | none => []

/-- What `process_single_epg` does to one feed and what it returns/writes. -/
structure EpgResult where
  found : List Str
  chansOut : List FeedChannel
  progsOut : List Programme
  s2d : List (Str × List Str)
deriving DecidableEq, Repr

/-- `process_single_epg(url_data, unmatched_keys, m3u_map, outfile)` on a
successfully downloaded, well-formed feed. -/
def process_single_epg (ov : List (Str × Str)) (unmatchedKeys : List Str)
    (m3uMap : List (Str × M3uGroup)) (feed : FeedContent) : EpgResult :=
  let storage := buildStorage feed.channels
  let st := chanPass ov storage m3uMap unmatchedKeys
  { found := st.found
    chansOut := st.chansOut
    progsOut := progPass st.s2d feed.programmes
    s2d := st.s2d }

/-! ### Playlist (M3U) parsing, main loop and report

`main` (src/update_epg.py lines 206-285).  The playlist text arrives as its
list of lines (`splitlines`); each feed arrives as parsed content, `None`
standing for a failed download. -/

/-- Python `pat in line` on strings. -/
def containsSub (pat : Str) : Str → Bool
  | [] => pat.isEmpty
  | c :: cs => pat.isPrefixOf (c :: cs) || containsSub pat cs

/-- `line.split(pat)[1]` for a pattern known to occur: everything after the
first occurrence (the guard `'tvg-id="' in line` runs first). -/
def afterFirst (pat : Str) : Str → Str
  | [] => []
  | c :: cs => if pat.isPrefixOf (c :: cs) then (c :: cs).drop pat.length else afterFirst pat cs

/-- `line.rsplit(',', 1)[-1]`: the segment after the last comma, or the whole
line when it holds no comma. -/
def afterLastComma (s : Str) : Str := (s.reverse.takeWhile (fun c => c != ',')).reverse

/-- Python `str.strip()`: leading and trailing whitespace removed. -/
def pyStrip (s : Str) : Str :=
  ((s.dropWhile isPySpace).reverse.dropWhile isPySpace).reverse

/-- The attribute marker `'tvg-id="'`. -/
def tvgIdAttr : Str := ['t','v','g','-','i','d','=','"']

/-- `m3u_map` insertion for one parsed entry: a fresh key starts an empty
group, the target id is appended unless already present (coalescing
duplicates), the original label is always appended. -/
def m3uInsert (m : List (Str × M3uGroup)) (norm tvg name : Str) : List (Str × M3uGroup) :=
  match assocFind norm m with
  | none => m ++ [(norm, ([tvg], [name]))]
  | some (ids, names) =>
    assocUpdate norm (if tvg ∈ ids then ids else ids ++ [tvg], names ++ [name]) m

/-- One line of the playlist, as `main`'s parsing loop treats it: only
`#EXTINF` lines carrying a `tvg-id="` attribute contribute; the target id is
the attribute value up to the closing quote, the display label is the
stripped text after the last comma, and an entry whose label normalizes to
the empty key is skipped (`if norm:`). -/
def processM3uLine (m : List (Str × M3uGroup)) (line : Str) : List (Str × M3uGroup) :=
  if List.isPrefixOf ['#','E','X','T','I','N','F'] line && containsSub tvgIdAttr line then
    let tvg := (afterFirst tvgIdAttr line).takeWhile (fun c => c != '"')
    let name := pyStrip (afterLastComma line)
    let norm := normalize_name name
    if norm = [] then m else m3uInsert m norm tvg name
  else m

/-- `main`'s playlist-parsing loop. -/
def parseM3u (lines : List Str) : List (Str × M3uGroup) := lines.foldl processM3uLine []

/-- One entry of `downloaded_epgs`: the feed's url and its parsed bytes. -/
abbrev DownloadedFeed := Str × FeedContent

/-- What `main`'s sequential processing loop produces: the final unmatched
set, the channel and programme records written to the output file in order,
and the urls of the feeds actually handed to `process_single_epg`. -/
structure RunResult where
  unmatched : List Str
  chansOut : List FeedChannel
  progsOut : List Programme
  processed : List Str
deriving DecidableEq, Repr

/-- `for epg_data in downloaded_epgs:` — stop as soon as the unmatched set is
empty (checked before each feed), otherwise process the feed and discard its
found keys from the unmatched set. -/
def runFeeds (ov : List (Str × Str)) (m3uMap : List (Str × M3uGroup)) :
    List DownloadedFeed → List Str → RunResult
  | [], u => ⟨u, [], [], []⟩
  | (url, content) :: rest, u =>
    if u = [] then ⟨u, [], [], []⟩
    else
      let r := process_single_epg ov u m3uMap content
      let tail := runFeeds ov m3uMap rest (u.filter fun k => decide (k ∉ r.found))
      ⟨tail.unmatched, r.chansOut ++ tail.chansOut, r.progsOut ++ tail.progsOut,
        url :: tail.processed⟩

/-- The per-step trace of the same loop: for every feed actually processed,
the unmatched set it started from and the keys it resolved. -/
def runFoundTrace (ov : List (Str × Str)) (m3uMap : List (Str × M3uGroup)) :
    List DownloadedFeed → List Str → List (List Str × List Str)
  | [], _ => []
  | (_, content) :: rest, u =>
    if u = [] then []
    else
      let r := process_single_epg ov u m3uMap content
      (u, r.found) :: runFoundTrace ov m3uMap rest (u.filter fun k => decide (k ∉ r.found))

/-- `f"{n}"` for a natural count. -/
def natStr (n : Nat) : Str := (Nat.repr n).data

/-- `m3u_map[k]['original_names'][0]`: the first original label of a group
(every reported key is a key of the map, and a group is only ever created
together with its first label, so the list is never empty). -/
def firstNameOf (m3uMap : List (Str × M3uGroup)) (k : Str) : Str :=
  (((assocFind k m3uMap).map Prod.snd).getD []).headD []

/-- The lines of `missing_report.txt`: the counts, a blank line, then the
still-missing keys in `sorted` order each paired with its first original
label — or `PERFECT MATCH!`. -/
def missingReport (totalGroups : Nat) (m3uMap : List (Str × M3uGroup))
    (unmatched : List Str) : List Str :=
  [['T','o','t','a','l',' ','G','r','o','u','p','s',':',' '] ++ natStr totalGroups,
   ['M','a','t','c','h','e','d',':',' '] ++ natStr (totalGroups - unmatched.length),
   ['M','i','s','s','i','n','g',':',' '] ++ natStr unmatched.length,
   []] ++
  (if unmatched = [] then [['P','E','R','F','E','C','T',' ','M','A','T','C','H','!']]
   else ['M','I','S','S','I','N','G',' ','C','H','A','N','N','E','L','S',':'] ::
     (List.insertionSort (· ≤ ·) unmatched).map
       (fun k => k ++ [' ',':',' '] ++ firstNameOf m3uMap k))

/-- `main` after the downloads: parse the playlist, initialize the unmatched
set to all playlist keys (`set(m3u_map.keys())`, embedded in insertion
order), process the downloaded feeds sequentially, write the report. -/
def mainRun (ov : List (Str × Str)) (m3uLines : List Str)
    (downloadedEpgs : List DownloadedFeed) : RunResult × List Str :=
  let m3uMap := parseM3u m3uLines
  let unmatched0 := m3uMap.map Prod.fst
  let r := runFeeds ov m3uMap downloadedEpgs unmatched0
  (r, missingReport m3uMap.length m3uMap r.unmatched)

/-- The concurrency model of `main`'s download stage: the worker pool
downloads all of `EPG_URLS`, `concurrent.futures.as_completed` yields the
futures in whatever order the downloads finish, and `main` appends each
successful result as it arrives.  So `downloaded_epgs` is some permutation
of the successfully downloaded feeds of the declared list — which
permutation is scheduling-dependent. -/
def validCompletionOrder (declared : List (Str × Option FeedContent))
    (completed : List DownloadedFeed) : Prop :=
  completed.Perm (declared.filterMap fun uf => uf.2.map fun c => (uf.1, c))

/-! ### C3: normalization and idempotence

A fully normalized key consists of lowercase ASCII alphanumerics only, so a
second `normalize_name` can strip no prefix and drop no character — but the
suffix pattern fires again when the key as a whole equals one of the quality
tokens, which happens exactly when punctuation inside the original label
separated the token's letters (e.g. `"h-d"` normalizes to `"hd"`, which a
second pass erases). -/

theorem char_toNat_ofNat (n : Nat) (h : n.isValidChar) : (Char.ofNat n).toNat = n := by
  rw [Char.ofNat, dif_pos h]
  rcases h with h | h
  · simp [Char.ofNatAux, Char.toNat, UInt32.toNat, UInt32.ofNatTruncate]
  · simp [Char.ofNatAux, Char.toNat, UInt32.toNat, UInt32.ofNatTruncate]

theorem toLower_toNat (c : Char) :
    (Char.toLower c).toNat = if 65 ≤ c.toNat ∧ c.toNat ≤ 90 then c.toNat + 32 else c.toNat := by
  simp only [Char.toLower]
  by_cases h : 65 ≤ c.toNat ∧ c.toNat ≤ 90
  · rw [if_pos h, if_pos h, char_toNat_ofNat _ (Or.inl (by omega))]
  · rw [if_neg h, if_neg h]

theorem lower_of_alnum {c : Char} (h : isAsciiAlnum c = true) :
    isLowerAlnum (Char.toLower c) = true := by
  simp only [isAsciiAlnum, Bool.or_eq_true, Bool.and_eq_true, decide_eq_true_eq] at h
  simp only [isLowerAlnum, Bool.or_eq_true, Bool.and_eq_true, decide_eq_true_eq, toLower_toNat]
  by_cases h65 : 65 ≤ c.toNat ∧ c.toNat ≤ 90
  · rw [if_pos h65]; omega
  · rw [if_neg h65]; omega

theorem toLower_of_lower {c : Char} (h : isLowerAlnum c = true) : Char.toLower c = c := by
  simp only [isLowerAlnum, Bool.or_eq_true, Bool.and_eq_true, decide_eq_true_eq] at h
  simp only [Char.toLower]
  rw [if_neg (by omega)]

theorem wordChar_of_lower {c : Char} (h : isLowerAlnum c = true) : isWordChar c = true := by
  simp only [isLowerAlnum, Bool.or_eq_true, Bool.and_eq_true, decide_eq_true_eq] at h
  simp only [isWordChar, isAsciiAlnum, Bool.or_eq_true, Bool.and_eq_true, decide_eq_true_eq]
  left; omega

theorem alnum_of_lower {c : Char} (h : isLowerAlnum c = true) : isAsciiAlnum c = true := by
  simp only [isLowerAlnum, Bool.or_eq_true, Bool.and_eq_true, decide_eq_true_eq] at h
  simp only [isAsciiAlnum, Bool.or_eq_true, Bool.and_eq_true, decide_eq_true_eq]
  omega

theorem lower_toNat_mem {c : Char} (h : isLowerAlnum c = true) :
    (97 ≤ c.toNat ∧ c.toNat ≤ 122) ∨ (48 ≤ c.toNat ∧ c.toNat ≤ 57) := by
  simpa only [isLowerAlnum, Bool.or_eq_true, Bool.and_eq_true, decide_eq_true_eq] using h

theorem lower_beq_false {c : Char} (d : Char) (h : isLowerAlnum c = true)
    (hd : d.toNat < 48 ∨ (57 < d.toNat ∧ d.toNat < 97) ∨ 122 < d.toNat) : (c == d) = false := by
  rw [Bool.eq_false_iff]
  intro hc
  have : c = d := by exact beq_iff_eq.mp hc
  subst this
  rcases lower_toNat_mem h with h' | h' <;> omega

theorem lower_notPySpace {c : Char} (h : isLowerAlnum c = true) : isPySpace c = false := by
  have m := lower_toNat_mem h
  simp only [isPySpace]
  rw [lower_beq_false ' ' h (by left; decide), lower_beq_false '\t' h (by left; decide),
    lower_beq_false '\n' h (by left; decide), lower_beq_false '\x0b' h (by left; decide),
    lower_beq_false '\x0c' h (by left; decide), lower_beq_false '\r' h (by left; decide)]
  rfl

theorem startsWithCI_length_le {t s : Str} (h : startsWithCI t s = true) :
    t.length ≤ s.length := by
  induction t generalizing s with
  | nil => simp
  | cons c cs ih =>
    cases s with
    | nil => simp [startsWithCI] at h
    | cons d ds =>
      simp only [startsWithCI, Bool.and_eq_true] at h
      simpa using Nat.succ_le_succ (ih h.2)

theorem startsWithCI_eq {t s : Str} (hlen : s.length = t.length)
    (hl : ∀ c ∈ s, isLowerAlnum c = true) (h : startsWithCI t s = true) :
    s = t.map Char.toLower := by
  induction t generalizing s with
  | nil => cases s with
    | nil => rfl
    | cons d ds => simp at hlen
  | cons c cs ih =>
    cases s with
    | nil => simp at hlen
    | cons d ds =>
      simp only [startsWithCI, Bool.and_eq_true] at h
      have hd : Char.toLower d = Char.toLower c := beq_iff_eq.mp h.1
      have hdl : Char.toLower d = d := toLower_of_lower (hl d (by simp))
      simp only [List.map]
      rw [← hd, hdl]
      exact congrArg (d :: ·)
        (ih (by simpa using hlen) (fun x hx => hl x (List.mem_cons_of_mem _ hx)) h.2)

theorem endBoundary_of_words {s : Str} (hw : ∀ c ∈ s, isWordChar c = true)
    (h : endBoundary s = true) : s = [] := by
  cases s with
  | nil => rfl
  | cons c cs =>
    simp only [endBoundary, Bool.not_eq_eq_eq_not, Bool.not_true] at h
    rw [hw c (by simp)] at h
    cases h

theorem token_match_mem {t s : Str} (ht : t ∈ suffixTokens)
    (hl : ∀ c ∈ s, isLowerAlnum c = true)
    (hm : startsWithCI t s = true) (hb : endBoundary (s.drop t.length) = true) :
    s ∈ suffixTokens.map (List.map Char.toLower) := by
  have hw : ∀ c ∈ s.drop t.length, isWordChar c = true := fun c hc =>
    wordChar_of_lower (hl c (List.mem_of_mem_drop hc))
  have hnil := endBoundary_of_words hw hb
  have hle : s.length ≤ t.length := by
    have := congrArg List.length hnil
    simp only [List.length_drop, List.length_nil] at this
    omega
  have hlen : s.length = t.length := Nat.le_antisymm hle (startsWithCI_length_le hm)
  exact List.mem_map.mpr ⟨t, ht, (startsWithCI_eq hlen hl hm).symm⟩

theorem suffixTokenLen_none_of_lower {s : Str} (hl : ∀ c ∈ s, isLowerAlnum c = true)
    (hs : s ∉ suffixTokens.map (List.map Char.toLower)) : suffixTokenLen s = none := by
  rw [suffixTokenLen, List.findSome?_eq_none_iff]
  intro t ht
  rw [if_neg]
  intro hc
  rw [Bool.and_eq_true] at hc
  exact hs (token_match_mem ht hl hc.1 hc.2)

theorem suffixSubAux_words (fuel : Nat) (s : Str) (hw : ∀ c ∈ s, isWordChar c = true) :
    suffixSubAux fuel true s = s := by
  induction fuel generalizing s with
  | zero => rfl
  | succ n ih =>
    cases s with
    | nil => rfl
    | cons c cs =>
      simp only [suffixSubAux, if_pos]
      rw [hw c (by simp), ih cs (fun x hx => hw x (List.mem_cons_of_mem _ hx))]

theorem suffixSub_of_lower (s : Str) (hl : ∀ c ∈ s, isLowerAlnum c = true) :
    suffixSub s = if s ∈ suffixTokens.map (List.map Char.toLower) then [] else s := by
  by_cases hs : s ∈ suffixTokens.map (List.map Char.toLower)
  · rw [if_pos hs]
    fin_cases hs <;> decide
  · rw [if_neg hs]
    cases s with
    | nil => rfl
    | cons c cs =>
      show suffixSubAux (cs.length + 1) false (c :: cs) = c :: cs
      simp only [suffixSubAux]
      rw [if_neg (by simp), suffixTokenLen_none_of_lower hl hs]
      rw [wordChar_of_lower (hl c (by simp)),
        suffixSubAux_words cs.length cs
          (fun x hx => wordChar_of_lower (hl x (List.mem_cons_of_mem _ hx)))]

theorem prefixMatchLen_none_of_lower {s : Str} (hl : ∀ c ∈ s, isLowerAlnum c = true) :
    prefixMatchLen s = none := by
  match s with
  | [] => rfl
  | [c0] => rfl
  | [c0, c1] => rfl
  | c0 :: c1 :: c2 :: rest =>
    have h2 : isLowerAlnum c2 = true := hl c2 (by simp)
    have hcolon : (c2 == ':') = false := lower_beq_false ':' h2 (by right; left; decide)
    have hspace : (c2 == ' ') = false := lower_beq_false ' ' h2 (by left; decide)
    have hws : isPySpace c2 = false := lower_notPySpace h2
    simp [prefixMatchLen, hcolon, hspace, hws]

theorem prefixSub_of_lower (s : Str) (hl : ∀ c ∈ s, isLowerAlnum c = true) :
    prefixSub s = s := by
  rw [prefixSub, prefixMatchLen_none_of_lower hl]

theorem normalize_lower (s : Str) : ∀ c ∈ normalize_name s, isLowerAlnum c = true := by
  intro c hc
  rw [normalize_name] at hc
  split at hc
  · cases hc
  · obtain ⟨d, hd, rfl⟩ := List.mem_map.mp hc
    exact lower_of_alnum (List.of_mem_filter hd)

theorem filter_alnum_of_lower (s : Str) (hl : ∀ c ∈ s, isLowerAlnum c = true) :
    s.filter isAsciiAlnum = s :=
  List.filter_eq_self.mpr fun c hc => alnum_of_lower (hl c hc)

theorem map_toLower_of_lower (s : Str) (hl : ∀ c ∈ s, isLowerAlnum c = true) :
    s.map Char.toLower = s := by
  induction s with
  | nil => rfl
  | cons c cs ih =>
    simp only [List.map, toLower_of_lower (hl c (by simp))]
    rw [ih fun x hx => hl x (List.mem_cons_of_mem _ hx)]

/-- C3, counterexample: `normalize_name` is not idempotent.  `"h-d"`
normalizes to `"hd"` (the hyphen blocks the suffix pattern, then is dropped
by the non-alphanumeric pass), but normalizing `"hd"` erases it entirely,
because `hd` now matches `SUFFIX_PATTERN` whole. -/
theorem c3_normalize_not_idempotent_cex :
    normalize_name (normalize_name ['h', '-', 'd']) ≠ normalize_name ['h', '-', 'd'] := by
  decide

/-- C3, amended: normalization is idempotent except when the normalized key
itself equals one of the quality-suffix tokens (`fhd`, `hd`, `sd`, `h265`,
`vip`, `4k`, `backup`, `hevc`, `avc`), in which case the second application
returns the empty key. -/
theorem c3_normalize_idempotent_amended (s : Str) :
    normalize_name (normalize_name s) =
      if normalize_name s ∈ suffixTokens.map (List.map Char.toLower) then []
      else normalize_name s := by
  have hl := normalize_lower s
  by_cases hy : normalize_name s = []
  · rw [hy]
    decide
  · rw [normalize_name, if_neg hy, prefixSub_of_lower _ hl, suffixSub_of_lower _ hl]
    by_cases hm : normalize_name s ∈ suffixTokens.map (List.map Char.toLower)
    · rw [if_pos hm]
      rfl
    · rw [if_neg hm, filter_alnum_of_lower _ hl, map_toLower_of_lower _ hl]

/-! ### C7: incomplete playlist entries are skipped silently -/

/-- C7: a playlist entry line missing its identifier (no `tvg-id="` attribute)
or missing its label (the stripped trailing segment after the final comma is
empty) is silently skipped: it leaves the playlist index exactly as it was.
`processM3uLine` is a total function, so no error is raised on such lines. -/
theorem c7_skip_incomplete_entries (m : List (Str × M3uGroup)) (line : Str)
    (h : containsSub tvgIdAttr line = false ∨ pyStrip (afterLastComma line) = []) :
    processM3uLine m line = m := by
  by_cases hc : (List.isPrefixOf ['#','E','X','T','I','N','F'] line &&
      containsSub tvgIdAttr line) = true
  · rcases h with h | h
    · rw [h, Bool.and_false] at hc
      cases hc
    · rw [processM3uLine, if_pos hc]
      simp only [h]
      rfl
  · rw [processM3uLine, if_neg hc]

/-- C7 at a concrete input: an `#EXTINF` line with an identifier but an empty
label (nothing after the final comma) contributes nothing. -/
theorem c7_skip_incomplete_entries_witness :
    processM3uLine [] ['#','E','X','T','I','N','F',':','-','1',' ',
      't','v','g','-','i','d','=','"','1','0','0','"',','] = [] :=
  c7_skip_incomplete_entries [] _ (Or.inr (by decide))

/-! ### C2: resolver tier priority -/

/-- C2: the resolver tiers run strictly in the order manual override, exact
normalized-name match, similarity match, and the first tier that succeeds
determines the SourceID.  (1) A manual override whose SourceID exists in the
feed wins outright.  (2) When the override tier fails (no override, or its
SourceID absent from this feed), an exact match on the storage key wins.
(3) When both fail, the result is exactly the similarity tier's.  (4) In the
claim's scenario — an override (id `ovr`), an exact candidate (`TF1`, id
`ex1`) and a close-but-not-exact fuzzy candidate (`TF12`, id `fz1`) all
present for key `tf1` — the override's SourceID is used. -/
theorem c2_resolver_tier_priority (ov : List (Str × Str))
    (storage : List (Str × FeedChannel)) (key tgt : Str) :
    (assocFind key ov = some tgt →
      storage.any (fun e => decide (e.2.id = tgt)) = true →
      resolveKey ov storage key = some tgt) ∧
    (∀ e, (assocFind key ov = none ∨
        (assocFind key ov = some tgt ∧ storage.any (fun ch => decide (ch.2.id = tgt)) = false)) →
      assocFind key storage = some e →
      resolveKey ov storage key = some e.id) ∧
    ((assocFind key ov = none ∨
        (assocFind key ov = some tgt ∧ storage.any (fun ch => decide (ch.2.id = tgt)) = false)) →
      assocFind key storage = none →
      resolveKey ov storage key =
        (getCloseMatches1 key (storage.map Prod.fst)).bind
          fun best => (assocFind best storage).map FeedChannel.id) ∧
    resolveKey [(['t','f','1'], ['o','v','r'])]
      (buildStorage [⟨['o','v','r'], ['Z','e','d']⟩, ⟨['e','x','1'], ['T','F','1']⟩,
        ⟨['f','z','1'], ['T','F','1','2']⟩])
      ['t','f','1'] = some ['o','v','r'] := by
  refine ⟨?_, ?_, ?_, ?_⟩
  · intro h1 h2
    simp [resolveKey, resolveOverride, h1, h2]
  · intro e h1 h2
    rcases h1 with h1 | ⟨h1, h1'⟩
    · simp [resolveKey, resolveOverride, h1, h2]
    · simp [resolveKey, resolveOverride, h1, h1', h2]
  · intro h1 h2
    rcases h1 with h1 | ⟨h1, h1'⟩
    · simp only [resolveKey, resolveOverride, h1, h2]
      cases getCloseMatches1 key (storage.map Prod.fst) <;> rfl
    · simp only [resolveKey, resolveOverride, h1, h1', h2, Bool.false_eq_true, if_false]
      cases getCloseMatches1 key (storage.map Prod.fst) <;> rfl
  · set_option maxRecDepth 10000 in decide

/-! ### C6: early termination of the feed loop -/

theorem runFeeds_nil_unmatched (ov : List (Str × Str)) (m3uMap : List (Str × M3uGroup))
    (feeds : List DownloadedFeed) : runFeeds ov m3uMap feeds [] = ⟨[], [], [], []⟩ := by
  cases feeds with
  | nil => rfl
  | cons f rest =>
    obtain ⟨url, content⟩ := f
    rw [runFeeds, if_pos rfl]

/-- C6: once the unmatched set is empty after some prefix of the downloaded
feeds, the loop breaks before touching the next feed: no later feed is
handed to `process_single_epg` at all (the `processed` trace records exactly
the feeds that are). -/
theorem c6_early_termination (ov : List (Str × Str)) (m3uMap : List (Str × M3uGroup))
    (feeds1 feeds2 : List DownloadedFeed) (u : List Str)
    (h : (runFeeds ov m3uMap feeds1 u).unmatched = []) :
    runFeeds ov m3uMap (feeds1 ++ feeds2) u = runFeeds ov m3uMap feeds1 u := by
  induction feeds1 generalizing u with
  | nil =>
    have hu : u = [] := h
    subst hu
    simp only [List.nil_append]
    rw [runFeeds_nil_unmatched]
    rfl
  | cons f rest ih =>
    obtain ⟨url, content⟩ := f
    by_cases hu : u = []
    · simp only [List.cons_append, runFeeds, if_pos hu]
    · simp only [List.cons_append, runFeeds, if_neg hu] at h ⊢
      rw [show rest.append feeds2 = rest ++ feeds2 from rfl, ih _ h]

/-- C6 at a concrete input: one feed resolves the sole playlist key, and the
following downloaded feed is never processed. -/
theorem c6_early_termination_witness :
    runFeeds [] [(['t','f','1'], ([['1']], [['T','F','1']]))]
        ([(['u','1'], ⟨[⟨['s','1'], ['T','F','1']⟩], []⟩)] ++
          [(['u','2'], ⟨[⟨['s','2'], ['T','F','1']⟩], []⟩)])
        [['t','f','1']] =
      runFeeds [] [(['t','f','1'], ([['1']], [['T','F','1']]))]
        [(['u','1'], ⟨[⟨['s','1'], ['T','F','1']⟩], []⟩)] [['t','f','1']] :=
  c6_early_termination [] _ _ _ _ (by set_option maxRecDepth 10000 in decide)

/-! ### C5: monotonic resolution -/

theorem chanPass_found_mem (ov : List (Str × Str)) (storage : List (Str × FeedChannel))
    (m3uMap : List (Str × M3uGroup)) (keys : List Str) (st : ChanPassState) :
    ∀ k ∈ (keys.foldl (chanPassStep ov storage m3uMap) st).found,
      k ∈ st.found ∨ k ∈ keys := by
  induction keys generalizing st with
  | nil => exact fun k hk => Or.inl hk
  | cons a as ih =>
    intro k hk
    rcases ih (chanPassStep ov storage m3uMap st a) k hk with h | h
    · rw [chanPassStep] at h
      cases hko : keyOutcome ov storage m3uMap a with
      | none => rw [hko] at h; exact Or.inl h
      | some v =>
        obtain ⟨sid, e, tids⟩ := v
        rw [hko] at h
        simp only [] at h
        rcases List.mem_append.mp h with h' | h'
        · exact Or.inl h'
        · rw [List.mem_singleton] at h'
          exact Or.inr (h' ▸ List.mem_cons_self a as)
    · exact Or.inr (List.mem_cons_of_mem _ h)

/-- `process_single_epg` only ever reports keys it was given as unmatched. -/
theorem process_found_subset (ov : List (Str × Str)) (uKeys : List Str)
    (m3uMap : List (Str × M3uGroup)) (feed : FeedContent) :
    ∀ k ∈ (process_single_epg ov uKeys m3uMap feed).found, k ∈ uKeys := by
  intro k hk
  rcases chanPass_found_mem ov (buildStorage feed.channels) m3uMap uKeys ⟨[], [], []⟩ k hk
    with h | h
  · cases h
  · exact h

theorem runFoundTrace_entries (ov : List (Str × Str)) (m3uMap : List (Str × M3uGroup))
    (feeds : List DownloadedFeed) (u : List Str) :
    ∀ p ∈ runFoundTrace ov m3uMap feeds u,
      (∀ k ∈ p.1, k ∈ u) ∧ (∀ k ∈ p.2, k ∈ p.1) := by
  induction feeds generalizing u with
  | nil => intro p hp; cases hp
  | cons f rest ih =>
    obtain ⟨url, content⟩ := f
    intro p hp
    by_cases hu : u = []
    · rw [runFoundTrace, if_pos hu] at hp; cases hp
    · rw [runFoundTrace, if_neg hu] at hp
      rcases List.mem_cons.mp hp with rfl | hp
      · exact ⟨fun k hk => hk, fun k hk => process_found_subset ov u m3uMap content k hk⟩
      · refine ⟨fun k hk => ?_, (ih _ p hp).2⟩
        exact (List.mem_filter.mp ((ih _ p hp).1 k hk)).1

theorem runFoundTrace_head (ov : List (Str × Str)) (m3uMap : List (Str × M3uGroup))
    (feeds : List DownloadedFeed) (u : List Str) (p : List Str × List Str)
    (h : (runFoundTrace ov m3uMap feeds u).head? = some p) : p.1 = u := by
  cases feeds with
  | nil => cases h
  | cons f rest =>
    obtain ⟨url, content⟩ := f
    by_cases hu : u = []
    · rw [runFoundTrace, if_pos hu] at h; cases h
    · rw [runFoundTrace, if_neg hu] at h
      cases h
      rfl

theorem runFeeds_unmatched_sub (ov : List (Str × Str)) (m3uMap : List (Str × M3uGroup))
    (feeds : List DownloadedFeed) (u : List Str) :
    (∀ k ∈ (runFeeds ov m3uMap feeds u).unmatched, k ∈ u) ∧
      (runFeeds ov m3uMap feeds u).unmatched.length ≤ u.length := by
  induction feeds generalizing u with
  | nil => exact ⟨fun k hk => hk, Nat.le_refl _⟩
  | cons f rest ih =>
    obtain ⟨url, content⟩ := f
    by_cases hu : u = []
    · rw [runFeeds, if_pos hu]; exact ⟨fun k hk => hk, Nat.le_refl _⟩
    · rw [runFeeds, if_neg hu]
      refine ⟨fun k hk => ?_, ?_⟩
      · exact (List.mem_filter.mp ((ih _).1 k hk)).1
      · exact Nat.le_trans (ih _).2 (List.length_filter_le _ u)

/-- C5: (i) `main` initializes the working unmatched set to all playlist-group
keys; (ii) a feed resolves only keys from the unmatched set it was handed;
(iii) along the loop the unmatched set never gains a key and its size never
grows, end to end included; (iv) the key sets resolved by distinct processed
feeds are pairwise disjoint — a key resolved by an earlier feed is never
resolved again by a later one. -/
theorem c5_monotonic_resolution (ov : List (Str × Str)) (m3uLines : List Str)
    (m3uMap : List (Str × M3uGroup)) (feeds : List DownloadedFeed) (u0 : List Str) :
    (mainRun ov m3uLines feeds).1 =
      runFeeds ov (parseM3u m3uLines) feeds ((parseM3u m3uLines).map Prod.fst) ∧
    (∀ p ∈ runFoundTrace ov m3uMap feeds u0, ∀ k ∈ p.2, k ∈ p.1) ∧
    List.Chain' (fun p q => (∀ k ∈ q.1, k ∈ p.1) ∧ q.1.length ≤ p.1.length)
      (runFoundTrace ov m3uMap feeds u0) ∧
    (∀ k ∈ (runFeeds ov m3uMap feeds u0).unmatched, k ∈ u0) ∧
    (runFeeds ov m3uMap feeds u0).unmatched.length ≤ u0.length ∧
    List.Pairwise (fun p q => ∀ k ∈ p.2, k ∉ q.2) (runFoundTrace ov m3uMap feeds u0) := by
  refine ⟨rfl, fun p hp => (runFoundTrace_entries ov m3uMap feeds u0 p hp).2, ?_,
    (runFeeds_unmatched_sub ov m3uMap feeds u0).1,
    (runFeeds_unmatched_sub ov m3uMap feeds u0).2, ?_⟩
  · induction feeds generalizing u0 with
    | nil => exact List.chain'_nil
    | cons f rest ih =>
      obtain ⟨url, content⟩ := f
      by_cases hu : u0 = []
      · rw [runFoundTrace, if_pos hu]; exact List.chain'_nil
      · rw [runFoundTrace, if_neg hu]
        refine List.chain'_cons'.mpr ⟨fun q hq => ?_, ih _⟩
        have hq1 := runFoundTrace_head ov m3uMap rest _ q hq
        rw [hq1]
        exact ⟨fun k hk => (List.mem_filter.mp hk).1, List.length_filter_le _ u0⟩
  · induction feeds generalizing u0 with
    | nil => exact List.Pairwise.nil
    | cons f rest ih =>
      obtain ⟨url, content⟩ := f
      by_cases hu : u0 = []
      · rw [runFoundTrace, if_pos hu]; exact List.Pairwise.nil
      · rw [runFoundTrace, if_neg hu]
        refine List.Pairwise.cons (fun q hq => ?_) (ih _)
        intro k hk hk2
        have hent := runFoundTrace_entries ov m3uMap rest _ q hq
        have : k ∈ u0.filter
            (fun k => decide (k ∉ (process_single_epg ov u0 m3uMap content).found)) :=
          hent.1 k (hent.2 k hk2)
        rcases List.mem_filter.mp this with ⟨-, hdec⟩
        rw [decide_eq_true_eq] at hdec
        exact hdec hk

/-! ### C10: the unresolved report is sorted and deterministic -/

/-- C10: the still-unresolved keys are listed in lexicographically sorted
order (Python's `sorted` on strings), so the report is the same for any two
iteration orders of the unresolved set: it depends only on the set's
contents and the playlist index. -/
theorem c10_report_sorted_deterministic (total : Nat) (m3uMap : List (Str × M3uGroup))
    (u1 u2 : List Str) (h : u1.Perm u2) :
    missingReport total m3uMap u1 = missingReport total m3uMap u2 ∧
    List.Sorted (· ≤ ·) (List.insertionSort (· ≤ ·) u1) ∧
    (List.insertionSort (· ≤ ·) u1).Perm u1 := by
  refine ⟨?_, List.sorted_insertionSort _ u1, List.perm_insertionSort _ u1⟩
  have hsort : List.insertionSort (· ≤ ·) u1 = List.insertionSort (· ≤ ·) u2 :=
    List.eq_of_perm_of_sorted
      (((List.perm_insertionSort _ u1).trans h).trans (List.perm_insertionSort _ u2).symm)
      (List.sorted_insertionSort _ u1) (List.sorted_insertionSort _ u2)
  have hlen := h.length_eq
  by_cases h1 : u1 = []
  · have h2 : u2 = [] := by
      subst h1
      exact h.symm.eq_nil
    subst h1
    subst h2
    rfl
  · have h2 : u2 ≠ [] := by
      intro h2
      subst h2
      exact h1 h.eq_nil
    rw [missingReport, missingReport, hlen, hsort, if_neg h1, if_neg h2]

/-- C10 at a concrete input: two iteration orders of the same two-key set
produce the identical report. -/
theorem c10_report_sorted_deterministic_witness :
    missingReport 2 [] [['b'], ['a']] = missingReport 2 [] [['a'], ['b']] :=
  (c10_report_sorted_deterministic 2 [] [['b'], ['a']] [['a'], ['b']] (by decide)).1

/-! ### C9: the unresolved report's contents -/

/-- C9, counterexample: the report does not pair an unresolved key with all
of its original labels.  For the group `channelone` carrying the two labels
`FR: Channel One FHD` and `FR: Channel One HD`, only the first appears: the
line pairing the key with the second label is missing (the script writes
`original_names[0]` only). -/
theorem c9_report_first_label_only_cex :
    (['c','h','a','n','n','e','l','o','n','e'] ++ [' ',':',' '] ++
        ['F','R',':',' ','C','h','a','n','n','e','l',' ','O','n','e',' ','F','H','D']) ∈
      missingReport 1
        [(['c','h','a','n','n','e','l','o','n','e'],
          ([['1','0','0'], ['1','0','1']],
           [['F','R',':',' ','C','h','a','n','n','e','l',' ','O','n','e',' ','F','H','D'],
            ['F','R',':',' ','C','h','a','n','n','e','l',' ','O','n','e',' ','H','D']]))]
        [['c','h','a','n','n','e','l','o','n','e']] ∧
    (['c','h','a','n','n','e','l','o','n','e'] ++ [' ',':',' '] ++
        ['F','R',':',' ','C','h','a','n','n','e','l',' ','O','n','e',' ','H','D']) ∉
      missingReport 1
        [(['c','h','a','n','n','e','l','o','n','e'],
          ([['1','0','0'], ['1','0','1']],
           [['F','R',':',' ','C','h','a','n','n','e','l',' ','O','n','e',' ','F','H','D'],
            ['F','R',':',' ','C','h','a','n','n','e','l',' ','O','n','e',' ','H','D']]))]
        [['c','h','a','n','n','e','l','o','n','e']] := by
  constructor
  · decide
  · decide

/-- C9, amended: the report contains the total number of playlist groups, the
matched count, the unresolved count, and, for every still-unresolved key, a
line pairing that key with the first of its original display labels. -/
theorem c9_report_contents_amended (total : Nat) (m3uMap : List (Str × M3uGroup))
    (u : List Str) :
    (['T','o','t','a','l',' ','G','r','o','u','p','s',':',' '] ++ natStr total) ∈
      missingReport total m3uMap u ∧
    (['M','a','t','c','h','e','d',':',' '] ++ natStr (total - u.length)) ∈
      missingReport total m3uMap u ∧
    (['M','i','s','s','i','n','g',':',' '] ++ natStr u.length) ∈
      missingReport total m3uMap u ∧
    ∀ k ∈ u, (k ++ [' ',':',' '] ++ firstNameOf m3uMap k) ∈ missingReport total m3uMap u := by
  refine ⟨?_, ?_, ?_, ?_⟩
  · exact List.mem_append_left _ (by simp)
  · exact List.mem_append_left _ (by simp)
  · exact List.mem_append_left _ (by simp)
  · intro k hk
    rw [missingReport, if_neg (List.ne_nil_of_mem hk)]
    refine List.mem_append_right _ (List.mem_cons_of_mem _ ?_)
    exact List.mem_map.mpr ⟨k, (List.perm_insertionSort _ u).mem_iff.mpr hk, rfl⟩

/-! ### C1: processing order follows download-completion order

`main` fills `downloaded_epgs` inside `for future in
concurrent.futures.as_completed(future_to_url):`, so the list is ordered by
download *completion*, not by the declared priority of `EPG_URLS`; the
sequential processing loop then walks that list.  A feed declared later that
happens to download first is processed first — and, matching being
first-seen-wins, takes precedence.  The spec requires processing in
program-declared order even when fetches complete out of order, so this is a
bug in the script, demonstrated here on a two-feed schedule. -/

/-- C1: with feeds declared in the order `u1`, `u2`, both downloading
successfully but `u2` finishing first, `downloaded_epgs = [u2, u1]` is a
completion order `as_completed` can yield — and `main` then hands `u2` to
`process_single_epg` before `u1`, processing the later-declared feed first. -/
theorem c1_completion_order_processing :
    validCompletionOrder
      [(['u','1'], some ⟨[⟨['a','1'], ['A','l','p','h','a']⟩], []⟩),
       (['u','2'], some ⟨[⟨['b','1'], ['B','e','t','a']⟩], []⟩)]
      [(['u','2'], ⟨[⟨['b','1'], ['B','e','t','a']⟩], []⟩),
       (['u','1'], ⟨[⟨['a','1'], ['A','l','p','h','a']⟩], []⟩)] ∧
    (runFeeds [] [(['z','z','z'], ([['1']], [['Z','Z','Z']]))]
        [(['u','2'], ⟨[⟨['b','1'], ['B','e','t','a']⟩], []⟩),
         (['u','1'], ⟨[⟨['a','1'], ['A','l','p','h','a']⟩], []⟩)]
        [['z','z','z']]).processed = [['u','2'], ['u','1']] := by
  constructor
  · unfold validCompletionOrder
    decide
  · set_option maxRecDepth 10000 in decide

/-! ### C4: fan-out of matched records -/

theorem assocFind_update_self (k : Str) (v : α) (l : List (Str × α)) :
    assocFind k (assocUpdate k v l) = some v := by
  induction l with
  | nil => simp [assocUpdate, assocFind]
  | cons e rest ih =>
    obtain ⟨k', v'⟩ := e
    by_cases h : k' = k
    · rw [assocUpdate, if_pos h, assocFind, if_pos rfl]
    · rw [assocUpdate, if_neg h, assocFind, if_neg h, ih]

theorem assocFind_update_ne (k k' : Str) (v : α) (l : List (Str × α)) (h : k' ≠ k) :
    assocFind k (assocUpdate k' v l) = assocFind k l := by
  induction l with
  | nil => simp [assocUpdate, assocFind, h]
  | cons e rest ih =>
    obtain ⟨k0, v0⟩ := e
    by_cases h0 : k0 = k'
    · rw [assocUpdate, if_pos h0, assocFind, if_neg h, assocFind, if_neg (h0 ▸ h)]
    · rw [assocUpdate, if_neg h0, assocFind, assocFind]
      by_cases hk : k0 = k
      · rw [if_pos hk, if_pos hk]
      · rw [if_neg hk, if_neg hk, ih]

/-- The channel records one key's match contributes: one per TargetID of its
playlist group. -/
def fanoutBlock (ov : List (Str × Str)) (storage : List (Str × FeedChannel))
    (m3uMap : List (Str × M3uGroup)) (key : Str) : List FeedChannel :=
  match keyOutcome ov storage m3uMap key with
  | some (_, e, tids) => tids.map fun tid => { e with id := tid }
  | none => []

theorem chanPass_chansOut (ov : List (Str × Str)) (storage : List (Str × FeedChannel))
    (m3uMap : List (Str × M3uGroup)) (keys : List Str) (st : ChanPassState) :
    (keys.foldl (chanPassStep ov storage m3uMap) st).chansOut =
      st.chansOut ++ keys.flatMap (fanoutBlock ov storage m3uMap) := by
  induction keys generalizing st with
  | nil => simp
  | cons a as ih =>
    rw [List.foldl_cons, ih, List.flatMap_cons, ← List.append_assoc]
    congr 1
    rw [chanPassStep, fanoutBlock]
    cases keyOutcome ov storage m3uMap a with
    | none => simp
    | some v => obtain ⟨sid, e, tids⟩ := v; rfl

theorem chanPass_s2d_lookup (ov : List (Str × Str)) (storage : List (Str × FeedChannel))
    (m3uMap : List (Str × M3uGroup)) (keys : List Str) (st : ChanPassState)
    (k s : Str) (e : FeedChannel) (tids : List Str)
    (ho : keyOutcome ov storage m3uMap k = some (s, e, tids))
    (huniq : ∀ k' ∈ keys, k' ≠ k → ∀ v, keyOutcome ov storage m3uMap k' = some v → v.1 ≠ s)
    (hin : assocFind s st.s2d = some tids ∨ k ∈ keys) :
    assocFind s (keys.foldl (chanPassStep ov storage m3uMap) st).s2d = some tids := by
  induction keys generalizing st with
  | nil =>
    rcases hin with h | h
    · exact h
    · cases h
  | cons a as ih =>
    rw [List.foldl_cons]
    by_cases ha : a = k
    · subst ha
      refine ih _ (fun k' hk' => huniq k' (List.mem_cons_of_mem _ hk')) (Or.inl ?_)
      rw [chanPassStep, ho]
      exact assocFind_update_self s tids st.s2d
    · have hstep : assocFind s (chanPassStep ov storage m3uMap st a).s2d =
          assocFind s st.s2d := by
        rw [chanPassStep]
        cases hko : keyOutcome ov storage m3uMap a with
        | none => rfl
        | some v =>
          obtain ⟨sid, e', tids'⟩ := v
          have hne : sid ≠ s := by
            rcases hin with h | h
            · exact huniq a (List.mem_cons_self a as) ha _ hko
            · rcases List.mem_cons.mp h with rfl | h
              · exact absurd rfl ha
              · exact huniq a (List.mem_cons_self a as) ha _ hko
          exact assocFind_update_ne s sid tids' st.s2d hne
      refine ih _ (fun k' hk' => huniq k' (List.mem_cons_of_mem _ hk')) ?_
      rcases hin with h | h
      · exact Or.inl (hstep.trans h)
      · rcases List.mem_cons.mp h with rfl | h
        · exact absurd rfl ha
        · exact Or.inr h

/-- C4, counterexample: two keys resolving to the same feed channel break the
programme half of the fan-out claim.  Keys `tf1` (targets `{A}`, exact match)
and `tf11` (targets `{B, C}`, fuzzy match) both resolve to SourceID `src1`;
`source_to_dest_map[src1]` is overwritten with the later key's targets, so
the programme referencing `src1` is emitted only under `B` and `C` — zero
records carry `tf1`'s TargetID `A`, although `tf1` resolved to that channel
and its group holds exactly one TargetID. -/
theorem c4_fanout_cex :
    (['t','f','1'] ∈ (process_single_epg [] [['t','f','1'], ['t','f','1','1']]
        [(['t','f','1'], ([['A']], [['T','F','1']])),
         (['t','f','1','1'], ([['B'], ['C']], [['T','F','1','1']]))]
        ⟨[⟨['s','r','c','1'], ['T','F','1']⟩],
         [⟨['s','r','c','1'], ['p','r','o','g']⟩]⟩).found) ∧
    targetsOf [(['t','f','1'], ([['A']], [['T','F','1']])),
        (['t','f','1','1'], ([['B'], ['C']], [['T','F','1','1']]))] ['t','f','1'] = [['A']] ∧
    ((process_single_epg [] [['t','f','1'], ['t','f','1','1']]
        [(['t','f','1'], ([['A']], [['T','F','1']])),
         (['t','f','1','1'], ([['B'], ['C']], [['T','F','1','1']]))]
        ⟨[⟨['s','r','c','1'], ['T','F','1']⟩],
         [⟨['s','r','c','1'], ['p','r','o','g']⟩]⟩).progsOut.filter
      (fun q => q.channel == ['A'])).length = 0 ∧
    (process_single_epg [] [['t','f','1'], ['t','f','1','1']]
        [(['t','f','1'], ([['A']], [['T','F','1']])),
         (['t','f','1','1'], ([['B'], ['C']], [['T','F','1','1']]))]
        ⟨[⟨['s','r','c','1'], ['T','F','1']⟩],
         [⟨['s','r','c','1'], ['p','r','o','g']⟩]⟩).progsOut =
      [⟨['B'], ['p','r','o','g']⟩, ⟨['C'], ['p','r','o','g']⟩] := by
  set_option maxRecDepth 100000 in decide

/-- C4, amended: for a key whose playlist group holds the TargetID list
`tids`, if a feed channel resolves to that key then the output contains the
key's contiguous fan-out block of exactly one channel record per TargetID;
and provided no other key of the same pass resolves to the same SourceID
(otherwise the per-feed resolution map keeps only the last resolution), the
map sends that SourceID to `tids` and every programme referencing it is
emitted as a contiguous block of exactly one record per TargetID. -/
theorem c4_fanout_amended (ov : List (Str × Str)) (uKeys : List Str)
    (m3uMap : List (Str × M3uGroup)) (feed : FeedContent) (k s : Str)
    (e : FeedChannel) (tids : List Str)
    (hk : k ∈ uKeys)
    (ho : keyOutcome ov (buildStorage feed.channels) m3uMap k = some (s, e, tids))
    (huniq : ∀ k' ∈ uKeys, k' ≠ k → ∀ v,
      keyOutcome ov (buildStorage feed.channels) m3uMap k' = some v → v.1 ≠ s) :
    (∃ pre post, (process_single_epg ov uKeys m3uMap feed).chansOut =
      pre ++ tids.map (fun tid => { e with id := tid }) ++ post) ∧
    assocFind s (process_single_epg ov uKeys m3uMap feed).s2d = some tids ∧
    (∀ p ∈ feed.programmes, p.channel = s →
      ∃ pre post, (process_single_epg ov uKeys m3uMap feed).progsOut =
        pre ++ tids.map (fun tid => { p with channel := tid }) ++ post) := by
  have hs2d : assocFind s (process_single_epg ov uKeys m3uMap feed).s2d = some tids :=
    chanPass_s2d_lookup ov (buildStorage feed.channels) m3uMap uKeys ⟨[], [], []⟩
      k s e tids ho huniq (Or.inr hk)
  refine ⟨?_, hs2d, ?_⟩
  · obtain ⟨l1, l2, hsplit⟩ := List.append_of_mem hk
    refine ⟨l1.flatMap (fanoutBlock ov (buildStorage feed.channels) m3uMap),
      l2.flatMap (fanoutBlock ov (buildStorage feed.channels) m3uMap), ?_⟩
    have := chanPass_chansOut ov (buildStorage feed.channels) m3uMap uKeys ⟨[], [], []⟩
    rw [show (process_single_epg ov uKeys m3uMap feed).chansOut =
        (chanPass ov (buildStorage feed.channels) m3uMap uKeys).chansOut from rfl,
      chanPass, this, hsplit, List.flatMap_append, List.flatMap_cons]
    rw [show fanoutBlock ov (buildStorage feed.channels) m3uMap k =
        tids.map (fun tid => { e with id := tid }) by rw [fanoutBlock, ho]]
    simp [List.append_assoc]
  · intro p hp hps
    have hne : (process_single_epg ov uKeys m3uMap feed).s2d ≠ [] := by
      intro hnil
      rw [hnil] at hs2d
      cases hs2d
    obtain ⟨l1, l2, hsplit⟩ := List.append_of_mem hp
    refine ⟨l1.flatMap (fun q =>
        match assocFind q.channel (process_single_epg ov uKeys m3uMap feed).s2d with
        | some ts => ts.map fun tid => { q with channel := tid }
        | none => []),
      l2.flatMap (fun q =>
        match assocFind q.channel (process_single_epg ov uKeys m3uMap feed).s2d with
        | some ts => ts.map fun tid => { q with channel := tid }
        | none => []), ?_⟩
    rw [show (process_single_epg ov uKeys m3uMap feed).progsOut =
        progPass (process_single_epg ov uKeys m3uMap feed).s2d feed.programmes from rfl,
      progPass, if_neg hne, hsplit, List.flatMap_append, List.flatMap_cons, hps, hs2d]
    simp [List.append_assoc]

/-- C4, amended, at a concrete input: a single key `tf1` with the one-element
target group `{A}` resolves to `src1`; exactly one channel record (id `A`)
and, for the one programme referencing `src1`, exactly one programme record
(channel `A`) appear. -/
theorem c4_fanout_amended_witness :
    (∃ pre post, (process_single_epg [] [['t','f','1']]
        [(['t','f','1'], ([['A']], [['T','F','1']]))]
        ⟨[⟨['s','r','c','1'], ['T','F','1']⟩],
         [⟨['s','r','c','1'], ['p','r','o','g']⟩]⟩).chansOut =
      pre ++ [⟨['A'], ['T','F','1']⟩] ++ post) ∧
    assocFind ['s','r','c','1'] (process_single_epg [] [['t','f','1']]
        [(['t','f','1'], ([['A']], [['T','F','1']]))]
        ⟨[⟨['s','r','c','1'], ['T','F','1']⟩],
         [⟨['s','r','c','1'], ['p','r','o','g']⟩]⟩).s2d = some [['A']] ∧
    (∀ p ∈ ([⟨['s','r','c','1'], ['p','r','o','g']⟩] : List Programme),
      p.channel = ['s','r','c','1'] →
      ∃ pre post, (process_single_epg [] [['t','f','1']]
          [(['t','f','1'], ([['A']], [['T','F','1']]))]
          ⟨[⟨['s','r','c','1'], ['T','F','1']⟩],
           [⟨['s','r','c','1'], ['p','r','o','g']⟩]⟩).progsOut =
        pre ++ [{ p with channel := ['A'] }] ++ post) :=
  c4_fanout_amended [] [['t','f','1']] [(['t','f','1'], ([['A']], [['T','F','1']]))]
    ⟨[⟨['s','r','c','1'], ['T','F','1']⟩], [⟨['s','r','c','1'], ['p','r','o','g']⟩]⟩
    ['t','f','1'] ['s','r','c','1'] ⟨['s','r','c','1'], ['T','F','1']⟩ [['A']]
    (by decide) (by set_option maxRecDepth 100000 in decide)
    (fun k' hk' hne v hv => absurd (List.mem_singleton.mp hk') hne)

/-! ### C8: the similarity cutoff

The similarity tier accepts exactly when some candidate's `ratio()` meets the
0.85 cutoff: the two quick ratios `get_close_matches` checks first are upper
bounds of `ratio()` (proved below as `matchTotal ≤ min(len, len)` and
`matchTotal ≤` the multiset-intersection size), so they never reject a
candidate the full ratio would accept. -/

theorem matchLen_le_left (x y : Str) : matchLen x y ≤ x.length := by
  induction x generalizing y with
  | nil => cases y <;> simp [matchLen]
  | cons a as ih =>
    cases y with
    | nil => simp [matchLen]
    | cons b bs =>
      rw [matchLen]
      by_cases h : a = b
      · rw [if_pos h]
        simpa using ih bs
      · rw [if_neg h]
        simp

theorem matchLen_le_right (x y : Str) : matchLen x y ≤ y.length := by
  induction x generalizing y with
  | nil => cases y <;> simp [matchLen]
  | cons a as ih =>
    cases y with
    | nil => simp [matchLen]
    | cons b bs =>
      rw [matchLen]
      by_cases h : a = b
      · rw [if_pos h]
        simpa using ih bs
      · rw [if_neg h]
        simp

theorem matchLen_take_eq (x y : Str) :
    x.take (matchLen x y) = y.take (matchLen x y) := by
  induction x generalizing y with
  | nil => cases y <;> simp [matchLen]
  | cons a as ih =>
    cases y with
    | nil => simp [matchLen]
    | cons b bs =>
      rw [matchLen]
      by_cases h : a = b
      · rw [if_pos h]
        simp only [List.take_succ_cons, h]
        rw [ih bs]
      · rw [if_neg h]
        simp

/-- The documented postcondition of `find_longest_match`: a genuine common
block within the window. -/
def flmSpec (a b : Str) (alo ahi blo bhi : Nat) (m : Nat × Nat × Nat) : Prop :=
  alo ≤ m.1 ∧ m.1 + m.2.2 ≤ ahi ∧ blo ≤ m.2.1 ∧ m.2.1 + m.2.2 ≤ bhi ∧
    pySlice a m.1 (m.1 + m.2.2) = pySlice b m.2.1 (m.2.1 + m.2.2)

theorem foldl_preserve {α β : Type} {P : α → Prop} (f : α → β → α) (l : List β)
    (init : α) (h0 : P init) (hstep : ∀ acc x, P acc → x ∈ l → P (f acc x)) :
    P (l.foldl f init) := by
  induction l generalizing init with
  | nil => exact h0
  | cons x xs ih =>
    exact ih (f init x) (hstep init x h0 (List.mem_cons_self x xs))
      fun acc y hy hmem => hstep acc y hy (List.mem_cons_of_mem _ hmem)

theorem pySlice_self (x : Str) (i : Nat) : pySlice x i i = [] := by
  simp [pySlice]

theorem pySlice_block_eq (a b : Str) (i j ahi bhi k : Nat)
    (hk : k = matchLen (pySlice a i ahi) (pySlice b j bhi))
    (hka : k ≤ ahi - i) (hkb : k ≤ bhi - j) :
    pySlice a i (i + k) = pySlice b j (j + k) := by
  have heq := matchLen_take_eq (pySlice a i ahi) (pySlice b j bhi)
  rw [← hk] at heq
  simp only [pySlice] at heq ⊢
  rw [List.take_take, List.take_take, Nat.min_eq_left hka, Nat.min_eq_left hkb] at heq
  rw [Nat.add_sub_cancel_left, Nat.add_sub_cancel_left]
  exact heq

theorem flm_spec (a b : Str) (alo ahi blo bhi : Nat) (h1 : alo ≤ ahi) (h2 : blo ≤ bhi) :
    flmSpec a b alo ahi blo bhi (findLongestMatch a b alo ahi blo bhi) := by
  rw [findLongestMatch]
  refine foldl_preserve _ _ _ ?_ ?_
  · refine ⟨Nat.le_refl _, by simpa using h1, Nat.le_refl _, by simpa using h2, ?_⟩
    show pySlice a alo (alo + 0) = pySlice b blo (blo + 0)
    rw [Nat.add_zero, Nat.add_zero, pySlice_self, pySlice_self]
  · intro acc i hacc hi
    rcases List.mem_range'_1.mp hi with ⟨hilo, hihi⟩
    refine foldl_preserve _ _ _ hacc ?_
    intro best j hbest hj
    rcases List.mem_range'_1.mp hj with ⟨hjlo, hjhi⟩
    by_cases hlt : best.2.2 < matchLen (pySlice a i ahi) (pySlice b j bhi)
    · rw [if_pos hlt]
      have hka : matchLen (pySlice a i ahi) (pySlice b j bhi) ≤ ahi - i := by
        refine Nat.le_trans (matchLen_le_left _ _) ?_
        rw [pySlice, List.length_take]
        omega
      have hkb : matchLen (pySlice a i ahi) (pySlice b j bhi) ≤ bhi - j := by
        refine Nat.le_trans (matchLen_le_right _ _) ?_
        rw [pySlice, List.length_take]
        omega
      refine ⟨hilo, ?_, hjlo, ?_, ?_⟩
      · show i + matchLen (pySlice a i ahi) (pySlice b j bhi) ≤ ahi
        omega
      · show j + matchLen (pySlice a i ahi) (pySlice b j bhi) ≤ bhi
        omega
      · show pySlice a i (i + matchLen (pySlice a i ahi) (pySlice b j bhi)) =
          pySlice b j (j + matchLen (pySlice a i ahi) (pySlice b j bhi))
        exact pySlice_block_eq a b i j ahi bhi _ rfl hka hkb
    · rw [if_neg hlt]
      exact hbest

theorem matchTotalAux_le_min (fuel : Nat) (a b : Str) (alo ahi blo bhi : Nat)
    (h1 : alo ≤ ahi) (h2 : blo ≤ bhi) :
    matchTotalAux fuel a b alo ahi blo bhi ≤ min (ahi - alo) (bhi - blo) := by
  induction fuel generalizing alo ahi blo bhi with
  | zero => simp [matchTotalAux]
  | succ n ih =>
    rw [matchTotalAux]
    by_cases hz : (findLongestMatch a b alo ahi blo bhi).2.2 = 0
    · rw [if_pos hz]
      omega
    · rw [if_neg hz]
      obtain ⟨s1, s2, s3, s4, -⟩ := flm_spec a b alo ahi blo bhi h1 h2
      have hl := ih alo (findLongestMatch a b alo ahi blo bhi).1
        blo (findLongestMatch a b alo ahi blo bhi).2.1 (by omega) (by omega)
      have hr := ih ((findLongestMatch a b alo ahi blo bhi).1 +
          (findLongestMatch a b alo ahi blo bhi).2.2) ahi
        ((findLongestMatch a b alo ahi blo bhi).2.1 +
          (findLongestMatch a b alo ahi blo bhi).2.2) bhi s2 s4
      omega

theorem matchTotal_le_min (a b : Str) : matchTotal a b ≤ min a.length b.length := by
  have := matchTotalAux_le_min (a.length + b.length + 1) a b 0 a.length 0 b.length
    (Nat.zero_le _) (Nat.zero_le _)
  simpa using this

theorem inter_card_superadd (s1 s2 t1 t2 : Multiset Char) :
    Multiset.card (s1 ∩ t1) + Multiset.card (s2 ∩ t2) ≤
      Multiset.card ((s1 + s2) ∩ (t1 + t2)) := by
  rw [← Multiset.card_add]
  apply Multiset.card_le_card
  rw [Multiset.le_iff_count]
  intro c
  simp only [Multiset.count_add, Multiset.count_inter]
  omega

theorem pySlice_append (x : Str) (i j l : Nat) (hij : i ≤ j) (hjl : j ≤ l) :
    pySlice x i l = pySlice x i j ++ pySlice x j l := by
  simp only [pySlice]
  rw [show l - i = (j - i) + (l - j) by omega, List.take_add]
  congr 1
  rw [List.drop_drop, show i + (j - i) = j by omega]

theorem pySlice_length (x : Str) (i j : Nat) (hij : i ≤ j) (hj : j ≤ x.length) :
    (pySlice x i j).length = j - i := by
  rw [pySlice, List.length_take, List.length_drop]
  omega

theorem matchTotalAux_le_inter (fuel : Nat) (a b : Str) (alo ahi blo bhi : Nat)
    (h1 : alo ≤ ahi) (h2 : blo ≤ bhi) (ha : ahi ≤ a.length) (hb : bhi ≤ b.length) :
    matchTotalAux fuel a b alo ahi blo bhi ≤
      Multiset.card ((pySlice a alo ahi : Multiset Char) ∩ (pySlice b blo bhi : Multiset Char)) := by
  induction fuel generalizing alo ahi blo bhi with
  | zero => simp [matchTotalAux]
  | succ n ih =>
    rw [matchTotalAux]
    by_cases hz : (findLongestMatch a b alo ahi blo bhi).2.2 = 0
    · rw [if_pos hz]
      omega
    · rw [if_neg hz]
      obtain ⟨s1, s2, s3, s4, s5⟩ := flm_spec a b alo ahi blo bhi h1 h2
      have hl := ih alo (findLongestMatch a b alo ahi blo bhi).1
        blo (findLongestMatch a b alo ahi blo bhi).2.1 (by omega) (by omega)
        (by omega) (by omega)
      have hr := ih ((findLongestMatch a b alo ahi blo bhi).1 +
          (findLongestMatch a b alo ahi blo bhi).2.2) ahi
        ((findLongestMatch a b alo ahi blo bhi).2.1 +
          (findLongestMatch a b alo ahi blo bhi).2.2) bhi s2 s4 ha hb
      have hmid : Multiset.card
          ((pySlice a (findLongestMatch a b alo ahi blo bhi).1
              ((findLongestMatch a b alo ahi blo bhi).1 +
                (findLongestMatch a b alo ahi blo bhi).2.2) : Multiset Char) ∩
            (pySlice b (findLongestMatch a b alo ahi blo bhi).2.1
              ((findLongestMatch a b alo ahi blo bhi).2.1 +
                (findLongestMatch a b alo ahi blo bhi).2.2) : Multiset Char)) =
          (findLongestMatch a b alo ahi blo bhi).2.2 := by
        rw [s5]
        have hself : ∀ s : Multiset Char, s ∩ s = s := fun s =>
          le_antisymm (Multiset.inter_le_left s s) (Multiset.le_inter (le_refl s) (le_refl s))
        rw [hself, Multiset.coe_card]
        rw [pySlice_length b _ _ (by omega) (by omega)]
        omega
      have hsplit_a : (pySlice a alo ahi : Multiset Char) =
          (pySlice a alo (findLongestMatch a b alo ahi blo bhi).1 : Multiset Char) +
            (pySlice a (findLongestMatch a b alo ahi blo bhi).1
              ((findLongestMatch a b alo ahi blo bhi).1 +
                (findLongestMatch a b alo ahi blo bhi).2.2) : Multiset Char) +
            (pySlice a ((findLongestMatch a b alo ahi blo bhi).1 +
                (findLongestMatch a b alo ahi blo bhi).2.2) ahi : Multiset Char) := by
        rw [Multiset.coe_add, Multiset.coe_add]
        rw [← pySlice_append a _ _ _ (by omega) (by omega),
          ← pySlice_append a _ _ _ (by omega) (by omega)]
      have hsplit_b : (pySlice b blo bhi : Multiset Char) =
          (pySlice b blo (findLongestMatch a b alo ahi blo bhi).2.1 : Multiset Char) +
            (pySlice b (findLongestMatch a b alo ahi blo bhi).2.1
              ((findLongestMatch a b alo ahi blo bhi).2.1 +
                (findLongestMatch a b alo ahi blo bhi).2.2) : Multiset Char) +
            (pySlice b ((findLongestMatch a b alo ahi blo bhi).2.1 +
                (findLongestMatch a b alo ahi blo bhi).2.2) bhi : Multiset Char) := by
        rw [Multiset.coe_add, Multiset.coe_add]
        rw [← pySlice_append b _ _ _ (by omega) (by omega),
          ← pySlice_append b _ _ _ (by omega) (by omega)]
      rw [hsplit_a, hsplit_b]
      have hsup1 := inter_card_superadd
        ((pySlice a alo (findLongestMatch a b alo ahi blo bhi).1 : Multiset Char) +
          (pySlice a (findLongestMatch a b alo ahi blo bhi).1
            ((findLongestMatch a b alo ahi blo bhi).1 +
              (findLongestMatch a b alo ahi blo bhi).2.2) : Multiset Char))
        (pySlice a ((findLongestMatch a b alo ahi blo bhi).1 +
            (findLongestMatch a b alo ahi blo bhi).2.2) ahi : Multiset Char)
        ((pySlice b blo (findLongestMatch a b alo ahi blo bhi).2.1 : Multiset Char) +
          (pySlice b (findLongestMatch a b alo ahi blo bhi).2.1
            ((findLongestMatch a b alo ahi blo bhi).2.1 +
              (findLongestMatch a b alo ahi blo bhi).2.2) : Multiset Char))
        (pySlice b ((findLongestMatch a b alo ahi blo bhi).2.1 +
            (findLongestMatch a b alo ahi blo bhi).2.2) bhi : Multiset Char)
      have hsup2 := inter_card_superadd
        (pySlice a alo (findLongestMatch a b alo ahi blo bhi).1 : Multiset Char)
        (pySlice a (findLongestMatch a b alo ahi blo bhi).1
          ((findLongestMatch a b alo ahi blo bhi).1 +
            (findLongestMatch a b alo ahi blo bhi).2.2) : Multiset Char)
        (pySlice b blo (findLongestMatch a b alo ahi blo bhi).2.1 : Multiset Char)
        (pySlice b (findLongestMatch a b alo ahi blo bhi).2.1
          ((findLongestMatch a b alo ahi blo bhi).2.1 +
            (findLongestMatch a b alo ahi blo bhi).2.2) : Multiset Char)
      omega

theorem pySlice_full (x : Str) : pySlice x 0 x.length = x := by
  rw [pySlice, List.drop_zero, Nat.sub_zero, List.take_length]

theorem matchTotal_le_quickMatches (a b : Str) : matchTotal a b ≤ quickMatches a b := by
  have := matchTotalAux_le_inter (a.length + b.length + 1) a b 0 a.length 0 b.length
    (Nat.zero_le _) (Nat.zero_le _) (Nat.le_refl _) (Nat.le_refl _)
  rw [pySlice_full, pySlice_full] at this
  rw [quickMatches, ← Multiset.coe_card, ← Multiset.coe_inter]
  exact this

theorem calcRatioGeCutoff_mono {m m' total : Nat} (h : m ≤ m')
    (hc : calcRatioGeCutoff m total = true) : calcRatioGeCutoff m' total = true := by
  rw [calcRatioGeCutoff] at hc ⊢
  by_cases ht : total = 0
  · rw [if_pos ht]
  · rw [if_neg ht] at hc ⊢
    rw [decide_eq_true_eq] at hc ⊢
    omega

/-- The quick-ratio filters of `get_close_matches` are upper bounds of the
full ratio, so a candidate passes the triple test exactly when its full
ratio meets the cutoff. -/
theorem passesCutoff_iff (x word : Str) :
    passesCutoff x word = true ↔
      calcRatioGeCutoff (matchTotal x word) (x.length + word.length) = true := by
  rw [passesCutoff, Bool.and_eq_true, Bool.and_eq_true]
  constructor
  · exact fun h => h.2
  · intro h
    exact ⟨⟨calcRatioGeCutoff_mono (matchTotal_le_min x word) h,
      calcRatioGeCutoff_mono (matchTotal_le_quickMatches x word) h⟩, h⟩

theorem cutoff_iff_ratioQ (x word : Str) :
    calcRatioGeCutoff (matchTotal x word) (x.length + word.length) = true ↔
      FUZZY_MATCH_CUTOFF ≤ ratioQ x word := by
  rw [calcRatioGeCutoff, ratioQ, FUZZY_MATCH_CUTOFF]
  by_cases ht : x.length + word.length = 0
  · rw [if_pos ht, if_pos ht]
    exact ⟨fun _ => by norm_num, fun _ => rfl⟩
  · rw [if_neg ht, if_neg ht, decide_eq_true_eq]
    have htq : (0 : ℚ) < ((x.length : ℚ) + (word.length : ℚ)) := by
      have : 0 < x.length + word.length := Nat.pos_of_ne_zero ht
      exact_mod_cast this
    rw [div_le_div_iff₀ (by norm_num) htq]
    constructor
    · intro h
      have h' : ((17 * (x.length + word.length) : Nat) : ℚ) ≤
          ((40 * matchTotal x word : Nat) : ℚ) := Nat.cast_le.mpr h
      push_cast at h'
      linarith
    · intro h
      have h' : ((17 * (x.length + word.length) : Nat) : ℚ) ≤
          ((40 * matchTotal x word : Nat) : ℚ) := by
        push_cast
        linarith
      exact_mod_cast h'

theorem foldl_nlargest_isSome (word : Str) (l : List Str) (b : Str) :
    (l.foldl (nlargestStep word) (some b)).isSome = true := by
  induction l generalizing b with
  | nil => rfl
  | cons x xs ih =>
    rw [List.foldl_cons, nlargestStep]
    split
    · exact ih x
    · exact ih b

theorem getCloseMatches1_isSome (word : Str) (poss : List Str) :
    (getCloseMatches1 word poss).isSome = true ↔
      ∃ x ∈ poss, passesCutoff x word = true := by
  rw [getCloseMatches1]
  cases hf : poss.filter (fun x => passesCutoff x word) with
  | nil =>
    rw [List.foldl_nil]
    constructor
    · intro h
      cases h
    · rintro ⟨x, hx, hpass⟩
      exact absurd hpass (List.filter_eq_nil_iff.mp hf x hx)
  | cons y ys =>
    constructor
    · intro _
      have hy : y ∈ poss.filter (fun x => passesCutoff x word) := by
        rw [hf]
        exact List.mem_cons_self y ys
      rcases List.mem_filter.mp hy with ⟨hmem, hpass⟩
      exact ⟨y, hmem, hpass⟩
    · intro _
      rw [List.foldl_cons]
      exact foldl_nlargest_isSome word ys y

/-- C8: (i) for every key and candidate pool, the similarity tier accepts —
`get_close_matches(key, names, n=1, cutoff=0.85)` returns a candidate — if
and only if some candidate's sequence-similarity ratio against the key meets
or exceeds `FUZZY_MATCH_CUTOFF = 0.85`; (ii) key `beinsport1` against
candidate `beinsports1` is accepted (ratio 20/21); (iii) key `bbc` against a
feed whose only candidate is `abc` (ratio 2/3) is rejected and the key is
not among the feed's found keys, so it stays unresolved. -/
theorem c8_fuzzy_cutoff :
    (∀ word poss, (getCloseMatches1 word poss).isSome = true ↔
      ∃ x ∈ poss, FUZZY_MATCH_CUTOFF ≤ ratioQ x word) ∧
    getCloseMatches1 ['b','e','i','n','s','p','o','r','t','1']
      [['b','e','i','n','s','p','o','r','t','s','1']] =
      some ['b','e','i','n','s','p','o','r','t','s','1'] ∧
    getCloseMatches1 ['b','b','c'] [['a','b','c']] = none ∧
    (process_single_epg [] [['b','b','c']]
      [(['b','b','c'], ([['9']], [['B','B','C']]))]
      ⟨[⟨['c','1'], ['a','b','c']⟩], []⟩).found = [] := by
  refine ⟨?_, ?_, ?_, ?_⟩
  · intro word poss
    rw [getCloseMatches1_isSome]
    constructor
    · rintro ⟨x, hx, hpass⟩
      exact ⟨x, hx, (cutoff_iff_ratioQ x word).mp ((passesCutoff_iff x word).mp hpass)⟩
    · rintro ⟨x, hx, hratio⟩
      exact ⟨x, hx, (passesCutoff_iff x word).mpr ((cutoff_iff_ratioQ x word).mpr hratio)⟩
  · set_option maxRecDepth 100000 in decide
  · set_option maxRecDepth 10000 in decide
  · set_option maxRecDepth 10000 in decide
